import Mathlib

/-!
Verification of the streaming conversation engine of `secure-design`
(`CustomAgentService.query` and `extractErrorMessage` in the host service
source file).

The definitions below are a shallow embedding of the TypeScript source:
JavaScript runtime values are modelled by `JSVal`, chat messages by
`ChatMessage`, the stream chunks of the AI SDK by `Chunk`, and the body of
the `for await` loop of `query` by `step`.  The loop itself (with the abort
check, the `onMessage` observer emissions and the `catch` block) is
modelled by `runLoop` and `query`.
-/

namespace SecureDesign

mutual

/-- Model of a JavaScript runtime value as far as `extractErrorMessage`
and the stream-chunk payloads can observe it: `null` and `undefined`,
strings, numbers, booleans, `Error` instances (carrying their `message`),
plain objects as field lists, and functions (carrying the string that
`String(f)` would render).  JavaScript arrays are objects and are
represented by `obj` field lists. -/
inductive JSVal where
  | null
  | undef
  | str (s : String)
  | num (n : Int)
  | boolean (b : Bool)
  | errInstance (message : String)
  | obj (fields : JSFields)
  | func (src : String)
deriving DecidableEq, Repr

/-- Field list of a JavaScript object (key/value pairs in insertion order). -/
inductive JSFields where
  | nil
  | cons (key : String) (value : JSVal) (rest : JSFields)
deriving DecidableEq, Repr

end

/-- Builds a `JSFields` list from a Lean list of pairs. -/
def JSFields.ofList : List (String × JSVal) → JSFields
  | [] => .nil
  | (k, v) :: rest => .cons k v (JSFields.ofList rest)

/-- Field lookup in an object (`k in o` together with reading `o[k]`). -/
def JSFields.find : JSFields → String → Option JSVal
  | .nil, _ => none
  | .cons key value rest, k => if key == k then some value else rest.find k

mutual

/-- Model of `JSON.stringify` on a `JSVal` (used by `extractErrorMessage`
for objects with no string `message` field). -/
def jsonStringify : JSVal → String
  | .null => "null"
  | .undef => "undefined"
  | .str s => "\"" ++ s ++ "\""
  | .num n => toString n
  | .boolean b => cond b "true" "false"
  | .errInstance _ => "\x7b\x7d"
  | .obj fields => "\x7b" ++ jsonFields fields ++ "\x7d"
  | .func _ => "undefined"

/-- Renders the fields of an object for `jsonStringify`. -/
def jsonFields : JSFields → String
  | .nil => ""
  | .cons k v .nil => "\"" ++ k ++ "\":" ++ jsonStringify v
  | .cons k v (.cons k2 v2 rest) =>
      "\"" ++ k ++ "\":" ++ jsonStringify v ++ "," ++ jsonFields (.cons k2 v2 rest)

end

/-- Model of the JavaScript `String(x)` coercion. -/
def jsString : JSVal → String
  | .null => "null"
  | .undef => "undefined"
  | .str s => s
  | .num n => toString n
  | .boolean b => cond b "true" "false"
  | .errInstance m => "Error: " ++ m
  | .obj _ => "[object Object]"
  | .func s => s

/-- The combined JavaScript test `k in o && typeof o[k] === 'string'`:
returns the field's string value when the field is present and a string. -/
def getStrField (fields : JSFields) (k : String) : Option String :=
  match fields.find k with
  | some (.str s) => some s
  | _ => none

/-- Embedding of `extractErrorMessage` (source lines 23-44): normalizes an
arbitrary error payload to a string.  The branch order of the source
(null/undefined, then string, then `Error` instance, then object, then the
`String(error)` fallback) is mirrored by the disjoint constructors. -/
def extractErrorMessage : JSVal → String
  | .null => "Unknown error occurred"
  | .undef => "Unknown error occurred"
  | .str s => s
  | .errInstance m => m
  | .obj fields =>
      match getStrField fields "message" with
      | some m =>
          match getStrField fields "type" with
          | some t => t ++ ": " ++ m
          | none => m
      | none => jsonStringify (.obj fields)
  | .num n => jsString (.num n)
  | .boolean b => jsString (.boolean b)
  | .func s => jsString (.func s)

/-- Role of a chat message (`role` field of `ChatMessage`). -/
inductive Role where
  | user
  | assistant
  | system
  | tool
deriving DecidableEq, Repr

/-- Tagged union of a tool result's `output`
(`LanguageModelV2ToolResultOutput`): either a success kind (`text`/`json`)
or an error kind (`error-text`/`error-json`). -/
inductive ToolOutput where
  | text (value : String)
  | json (value : JSVal)
  | errorText (value : String)
  | errorJson (value : JSVal)
deriving DecidableEq, Repr

/-- Modelled from the spec: `guessToolResultOutput` lives in
`chunkToolOutputToMessageToolOutput.ts`, which is not under `src/`; only
its call sites in `query` are.  Per spec section 4.3 the classifier turns
strings and text-shaped payloads into the `text` kind and structured
values into the `json` kind, never fails (an unclassifiable value falls
back to its string form), and on the failure path the same classification
is wrapped in the `error-text` / `error-json` kinds.  The `isError` flag
records which call site (tool-result vs tool-error) the payload comes
from. -/
def guessToolResultOutput (isError : Bool) : JSVal → ToolOutput
  | .str s => cond isError (.errorText s) (.text s)
  | .obj fields => cond isError (.errorJson (.obj fields)) (.json (.obj fields))
  | v => cond isError (.errorText (jsString v)) (.text (jsString v))

/-- Content parts of a multi-part `ChatMessage` (the union
`TextPart | FilePart | ReasoningPart | ToolCallPart | ToolResultPart`). -/
inductive Part where
  | textPart (text : String)
  | filePart (data : String)
  | reasoning (text : String)
  | toolCall (toolCallId : String) (toolName : String) (input : JSVal)
  | toolResult (toolCallId : String) (toolName : String) (output : ToolOutput)
deriving DecidableEq, Repr

/-- Content of a `ChatMessage`: either a plain string or a part list. -/
inductive Content where
  | text (s : String)
  | parts (ps : List Part)
deriving DecidableEq, Repr

/-- Optional metadata of a `ChatMessage` (`is_error`, `timestamp` and
`session_id` are the fields `query` writes). -/
structure Metadata where
  is_error : Option Bool := none
  timestamp : Option Nat := none
  session_id : Option String := none
deriving DecidableEq, Repr

/-- One transcript entry (the `ChatMessage` type of the source). -/
structure ChatMessage where
  role : Role
  content : Content
  metadata : Option Metadata := none
deriving DecidableEq, Repr

example : extractErrorMessage (.str "boom") = "boom" := by decide
example : extractErrorMessage .null = "Unknown error occurred" := by decide
example : extractErrorMessage
    (.obj (.ofList [("type", .str "api"), ("message", .str "bad")])) = "api: bad" := by decide
example : extractErrorMessage
    (.obj (.ofList [("message", .str "bad"), ("code", .num 3)])) = "bad" := by decide
example : extractErrorMessage (.obj (.ofList [("code", .num 3)])) = "\x7b\"code\":3\x7d" := by decide
example : extractErrorMessage (.num 5) = "5" := by decide

/-- The typed stream events of `result.fullStream` that the `switch` of
`query` distinguishes.  The cases the source explicitly ignores
(`text-start`, `text-end`, `start-step`, `finish-step`, `start`,
`tool-input-end`, `reasoning-start`, `reasoning-end`, `reasoning-delta`,
`raw`) are collapsed into the single no-op constructor `structural`;
`file`, `abort` and `source` only log and are kept as their own no-op
constructors. -/
inductive Chunk where
  | textDelta (text : String)
  | finish (finishReason : String)
  | error (err : JSVal)
  | toolInputStart (id : String) (toolName : String)
  | toolInputDelta
  | toolCall (toolCallId : String) (toolName : String) (input : JSVal)
  | filePayload
  | abortPayload
  | sourcePayload
  | toolResult (toolCallId : String) (toolName : String) (output : JSVal)
  | toolError (toolCallId : String) (toolName : String) (error : JSVal)
  | structural
deriving DecidableEq, Repr

/-- The assistant error Turn that the `error` case and the `catch` block
append: plain-text content plus
metadata carrying the error flag, a timestamp and the session id. -/
def errorTurn (msg : String) (ts : Nat) (sid : String) : ChatMessage :=
  ⟨.assistant, .text msg, some ⟨some true, some ts, some sid⟩⟩

/-- The `text-delta` case of `query`: if the last message exists, has role
`assistant`, has plain string content and its `metadata?.is_error` is not
`true`, the delta is concatenated onto it (`slice(0, -1)` plus the updated
last message); otherwise a new assistant message whose content is the
delta is appended. -/
def mergeTextDelta (t : String) (msgs : List ChatMessage) : List ChatMessage :=
  match msgs.getLast? with
  | some ⟨.assistant, .text s, md⟩ =>
      if (md.bind Metadata.is_error) == some true then
        msgs ++ [⟨.assistant, .text t, none⟩]
      else
        msgs.dropLast ++ [⟨.assistant, .text (s ++ t), md⟩]
  | _ => msgs ++ [⟨.assistant, .text t, none⟩]

/-- JavaScript `Array.prototype.findIndex` restricted to a Bool predicate,
returning `none` instead of `-1`. -/
def findIdxFrom (p : α → Bool) : List α → Option Nat
  | [] => none
  | x :: xs => if p x then some 0 else (findIdxFrom p xs).map (· + 1)

/-- The predicate of the inner `findIndex` of the `tool-call` case:
`part.type === 'tool-call' && part.toolCallId === chunk.toolCallId`. -/
def partMatches (cid : String) : Part → Bool
  | .toolCall id _ _ => id == cid
  | _ => false

/-- One iteration of the backward scan of the `tool-call` case: the message
qualifies when `msg.role === 'assistant' && Array.isArray(msg.content)` and
its part list contains a tool-call part with the requested id; the
message's metadata, part list and matched part index are returned. -/
def matchMsg (cid : String) (m : ChatMessage) : Option (Option Metadata × List Part × Nat) :=
  match m with
  | ⟨.assistant, .parts ps, md⟩ => (findIdxFrom (partMatches cid) ps).map (fun j => (md, ps, j))
  | _ => none

/-- Backward scan (`for (let i = length - 1; i >= 0; i--)`): the match of
the LAST list element satisfying `p` wins; the returned index counts from
the front. -/
def findFromEnd (p : α → Option β) : List α → Option (Nat × β)
  | [] => none
  | x :: xs =>
      match findFromEnd p xs with
      | some (i, b) => some (i + 1, b)
      | none =>
          match p x with
          | some b => some (0, b)
          | none => none

/-- The `tool-call` case of `query`: scan messages from the most recent
backward for an assistant message whose part list holds a tool-call part
with the chunk's id; if found, replace that part with the finalized
tool-call part (copying the part list and the message); otherwise append a
new assistant message holding the single finalized tool-call part. -/
def upsertToolCall (cid name : String) (input : JSVal) (msgs : List ChatMessage) :
    List ChatMessage :=
  match findFromEnd (matchMsg cid) msgs with
  | some (i, md, ps, j) =>
      msgs.set i ⟨.assistant, .parts (ps.set j (.toolCall cid name input)), md⟩
  | none => msgs ++ [⟨.assistant, .parts [.toolCall cid name input], none⟩]

/-- Whether some message of the transcript is an assistant part-list
message holding a tool-call part with the given id. -/
def hasToolCallId (cid : String) (msgs : List ChatMessage) : Bool :=
  msgs.any (fun m => (matchMsg cid m).isSome)

/-- The body of the `for await` loop of `query` as a transition on the
transcript value: one stream chunk is dispatched through the `switch`.
`sid` is the session id fixed at turn start and `now` the value
`Date.now()` would return while the chunk is processed. -/
def step (sid : String) (now : Nat) (msgs : List ChatMessage) : Chunk → List ChatMessage
  | .textDelta t => mergeTextDelta t msgs
  | .finish _ => msgs
  | .error e => msgs ++ [errorTurn (extractErrorMessage e) now sid]
  | .toolInputStart cid name =>
      msgs ++ [⟨.assistant, .parts [.toolCall cid name (.obj .nil)], none⟩]
  | .toolInputDelta => msgs
  | .toolCall cid name input => upsertToolCall cid name input msgs
  | .filePayload => msgs
  | .abortPayload => msgs
  | .sourcePayload => msgs
  | .toolResult cid name out =>
      msgs ++ [⟨.tool, .parts [.toolResult cid name (guessToolResultOutput false out)], none⟩]
  | .toolError cid name err =>
      msgs ++ [⟨.tool, .parts [.toolResult cid name (guessToolResultOutput true err)],
                some ⟨some true, none, none⟩⟩]
  | .structural => msgs

/-- Folds a chunk list through `step` (used to state properties of event
runs independently of the abort machinery). -/
def foldSteps (sid : String) (now : Nat) (msgs : List ChatMessage) (cs : List Chunk) :
    List ChatMessage :=
  cs.foldl (step sid now) msgs

/-- The `for await` loop of `query`: before each chunk the abort signal is
tested (`ab i` is the signal's state at the check preceding the `i`-th
chunk; on `true` the loop throws `Error('Operation cancelled')`), then the
chunk is processed and the new transcript value is handed to `onMessage`.
Returns the list of emitted snapshots, the final transcript value and
whether the loop threw because of the abort signal.  `clock i` is the
`Date.now()` value while chunk `i` is processed. -/
def runLoop (sid : String) (clock : Nat → Nat) (ab : Nat → Bool)
    (msgs : List ChatMessage) (i : Nat) :
    List Chunk → List (List ChatMessage) × List ChatMessage × Bool
  | [] => ([], msgs, false)
  | c :: cs =>
      if ab i then ([], msgs, true)
      else
        ((step sid (clock i) msgs c) ::
            (runLoop sid clock ab (step sid (clock i) msgs c) (i + 1) cs).1,
         (runLoop sid clock ab (step sid (clock i) msgs c) (i + 1) cs).2.1,
         (runLoop sid clock ab (step sid (clock i) msgs c) (i + 1) cs).2.2)

/-- Embedding of `query` (source lines 493-787): the session id is fixed at
turn start from `Date.now()` (`now`), the loop is driven over the chunks,
and when the loop throws because of the abort signal the `catch` block
appends an error Turn whose content is
`extractErrorMessage(Error('Operation cancelled'))`, emits the updated
transcript one final time, and re-raises (the `true` in the result).
`errNow` is the `Date.now()` value inside the `catch` block. -/
def query (now errNow : Nat) (clock : Nat → Nat) (ab : Nat → Bool)
    (history : List ChatMessage) (chunks : List Chunk) :
    List (List ChatMessage) × List ChatMessage × Bool :=
  if (runLoop ("session_" ++ toString now) clock ab history 0 chunks).2.2 then
    ((runLoop ("session_" ++ toString now) clock ab history 0 chunks).1 ++
       [(runLoop ("session_" ++ toString now) clock ab history 0 chunks).2.1 ++
         [errorTurn (extractErrorMessage (.errInstance "Operation cancelled")) errNow
           ("session_" ++ toString now)]],
     (runLoop ("session_" ++ toString now) clock ab history 0 chunks).2.1 ++
       [errorTurn (extractErrorMessage (.errInstance "Operation cancelled")) errNow
         ("session_" ++ toString now)],
     true)
  else runLoop ("session_" ++ toString now) clock ab history 0 chunks

example :
    foldSteps "s" 0 [] [.textDelta "Here is ", .textDelta "the design.", .finish "stop"] =
      [⟨.assistant, .text "Here is the design.", none⟩] := by decide

/-- The merge condition of the `text-delta` case for one message: role
`assistant`, plain string content, `metadata?.is_error !== true`. -/
def canMergeText : ChatMessage → Bool
  | ⟨.assistant, .text _, md⟩ => !((md.bind Metadata.is_error) == some true)
  | _ => false

/-- Whether the transcript's last message absorbs a text delta. -/
def canMergeLast (msgs : List ChatMessage) : Bool :=
  match msgs.getLast? with
  | some m => canMergeText m
  | none => false

/-- Concatenation of a list of text fragments in arrival order. -/
def sconcat : List String → String
  | [] => ""
  | s :: ss => s ++ sconcat ss

theorem mergeTextDelta_merge (t s : String) (init : List ChatMessage) (md : Option Metadata)
    (h : (md.bind Metadata.is_error) ≠ some true) :
    mergeTextDelta t (init ++ [⟨.assistant, .text s, md⟩]) =
      init ++ [⟨.assistant, .text (s ++ t), md⟩] := by
  unfold mergeTextDelta
  rw [List.getLast?_concat]
  simp [beq_eq_false_iff_ne.mpr h, List.dropLast_concat]

theorem mergeTextDelta_append (t : String) (msgs : List ChatMessage)
    (h : canMergeLast msgs = false) :
    mergeTextDelta t msgs = msgs ++ [⟨.assistant, .text t, none⟩] := by
  unfold mergeTextDelta
  unfold canMergeLast at h
  cases hm : msgs.getLast? with
  | none => simp
  | some m =>
    rw [hm] at h
    obtain ⟨role, content, md⟩ := m
    cases role <;> cases content <;> simp_all [canMergeText]

theorem foldSteps_cons (sid : String) (now : Nat) (msgs : List ChatMessage)
    (c : Chunk) (cs : List Chunk) :
    foldSteps sid now msgs (c :: cs) = foldSteps sid now (step sid now msgs c) cs := rfl

theorem foldSteps_text_run_merge (sid : String) (now : Nat) (ts : List String)
    (init : List ChatMessage) (s : String) (md : Option Metadata)
    (h : (md.bind Metadata.is_error) ≠ some true) :
    foldSteps sid now (init ++ [⟨.assistant, .text s, md⟩]) (ts.map Chunk.textDelta) =
      init ++ [⟨.assistant, .text (s ++ sconcat ts), md⟩] := by
  induction ts generalizing s with
  | nil => simp [foldSteps, sconcat, String.append_empty]
  | cons t ts ih =>
      rw [List.map_cons, foldSteps_cons]
      have hstep : step sid now (init ++ [⟨.assistant, .text s, md⟩]) (.textDelta t) =
          init ++ [⟨.assistant, .text (s ++ t), md⟩] := by
        rw [show step sid now (init ++ [⟨.assistant, .text s, md⟩]) (.textDelta t) =
              mergeTextDelta t (init ++ [⟨.assistant, .text s, md⟩]) from rfl]
        exact mergeTextDelta_merge t s init md h
      rw [hstep, ih (s ++ t)]
      rw [sconcat, ← String.append_assoc]

/-- C1: a run of consecutive text-fragment events with no intervening tool
or error events collapses into a single assistant Turn: when the current
last Turn does not absorb text deltas, the run appends exactly one new
assistant Turn whose plain-text content is the concatenation of the
fragments in arrival order; when the last Turn is an assistant Turn with
plain-text content not flagged as an error, the whole run merges into it
instead (content extended by the same concatenation, no new Turn). -/
theorem text_fragment_run_single_turn (sid : String) (now : Nat) (msgs : List ChatMessage)
    (ts : List String) (hne : ts ≠ []) :
    (canMergeLast msgs = false →
      foldSteps sid now msgs (ts.map Chunk.textDelta) =
        msgs ++ [⟨.assistant, .text (sconcat ts), none⟩])
    ∧ (∀ init s md, msgs = init ++ [⟨.assistant, .text s, md⟩] →
        (md.bind Metadata.is_error) ≠ some true →
        foldSteps sid now msgs (ts.map Chunk.textDelta) =
          init ++ [⟨.assistant, .text (s ++ sconcat ts), md⟩]) := by
  constructor
  · intro hlast
    obtain ⟨t, ts', rfl⟩ : ∃ t ts', ts = t :: ts' := by
      cases ts with
      | nil => exact absurd rfl hne
      | cons t ts' => exact ⟨t, ts', rfl⟩
    rw [List.map_cons, foldSteps_cons]
    have hstep : step sid now msgs (.textDelta t) = msgs ++ [⟨.assistant, .text t, none⟩] := by
      rw [show step sid now msgs (.textDelta t) = mergeTextDelta t msgs from rfl]
      exact mergeTextDelta_append t msgs hlast
    rw [hstep, foldSteps_text_run_merge sid now ts' msgs t none (by simp), sconcat]
  · intro init s md hmsgs h
    rw [hmsgs]
    exact foldSteps_text_run_merge sid now ts init s md h

/-- Witness for C1 at the spec's scenario: history ends with a user Turn,
two fragments produce one assistant Turn with the concatenated content. -/
theorem text_fragment_run_single_turn_witness :
    foldSteps "s" 0 [⟨Role.user, Content.text "design a login screen", none⟩]
        (["Here is ", "the design."].map Chunk.textDelta) =
      [⟨Role.user, Content.text "design a login screen", none⟩,
       ⟨Role.assistant, Content.text "Here is the design.", none⟩] := by
  have h := (text_fragment_run_single_turn "s" 0
      [⟨Role.user, Content.text "design a login screen", none⟩]
      ["Here is ", "the design."] (by decide)).1 (by decide)
  exact h.trans (by decide)

theorem findFromEnd_append_some (p : α → Option β) (l r : List α) (i : Nat) (b : β)
    (h : findFromEnd p r = some (i, b)) :
    findFromEnd p (l ++ r) = some (l.length + i, b) := by
  induction l with
  | nil => simpa using h
  | cons x xs ih =>
      rw [List.cons_append, findFromEnd, ih]
      have harith : xs.length + i + 1 = (x :: xs).length + i := by
        rw [List.length_cons]; omega
      rw [← harith]

theorem findFromEnd_append_none (p : α → Option β) (l r : List α)
    (h : findFromEnd p r = none) :
    findFromEnd p (l ++ r) = findFromEnd p l := by
  induction l with
  | nil => simpa using h
  | cons x xs ih => rw [List.cons_append, findFromEnd, ih, findFromEnd]

theorem findFromEnd_none_of_all (p : α → Option β) (l : List α)
    (h : ∀ x ∈ l, p x = none) : findFromEnd p l = none := by
  induction l with
  | nil => rfl
  | cons x xs ih =>
      rw [findFromEnd, ih (fun y hy => h y (List.mem_cons_of_mem x hy)),
        h x (List.mem_cons_self x xs)]

theorem findFromEnd_some_get (p : α → Option β) (l : List α) (i : Nat) (b : β)
    (h : findFromEnd p l = some (i, b)) :
    ∃ a, l[i]? = some a ∧ p a = some b := by
  induction l generalizing i with
  | nil => simp [findFromEnd] at h
  | cons x xs ih =>
      rw [findFromEnd] at h
      cases hx : findFromEnd p xs with
      | some ib =>
          obtain ⟨i', b'⟩ := ib
          rw [hx] at h
          simp only [Option.some.injEq, Prod.mk.injEq] at h
          obtain ⟨hi, hb⟩ := h
          subst hi; subst hb
          obtain ⟨a, ha, hpa⟩ := ih i' hx
          exact ⟨a, by simpa using ha, hpa⟩
      | none =>
          rw [hx] at h
          cases hp : p x with
          | some b0 =>
              rw [hp] at h
              simp only [Option.some.injEq, Prod.mk.injEq] at h
              obtain ⟨hi, hb⟩ := h
              subst hi; subst hb
              exact ⟨x, by simp, hp⟩
          | none => rw [hp] at h; cases h

theorem findFromEnd_set (p : α → Option β) (l : List α) (i : Nat) (b b' : β) (v : α)
    (hf : findFromEnd p l = some (i, b)) (hv : p v = some b') :
    findFromEnd p (l.set i v) = some (i, b') := by
  induction l generalizing i with
  | nil => simp [findFromEnd] at hf
  | cons x xs ih =>
      rw [findFromEnd] at hf
      cases hx : findFromEnd p xs with
      | some ib =>
          obtain ⟨i', b''⟩ := ib
          rw [hx] at hf
          simp only [Option.some.injEq, Prod.mk.injEq] at hf
          obtain ⟨hi, hb⟩ := hf
          subst hi; subst hb
          rw [List.set_cons_succ, findFromEnd, ih i' hx]
      | none =>
          rw [hx] at hf
          cases hp : p x with
          | some b0 =>
              rw [hp] at hf
              simp only [Option.some.injEq, Prod.mk.injEq] at hf
              obtain ⟨hi, hb⟩ := hf
              subst hi; subst hb
              rw [List.set_cons_zero, findFromEnd, hx, hv]
          | none => rw [hp] at hf; cases hf

theorem findIdxFrom_some_get (p : α → Bool) (l : List α) (j : Nat)
    (hf : findIdxFrom p l = some j) : ∃ a, l[j]? = some a ∧ p a = true := by
  induction l generalizing j with
  | nil => simp [findIdxFrom] at hf
  | cons x xs ih =>
      rw [findIdxFrom] at hf
      by_cases hp : p x = true
      · rw [if_pos hp] at hf
        injection hf with hf
        subst hf
        exact ⟨x, by simp, hp⟩
      · rw [if_neg (by simpa using hp)] at hf
        cases hxs : findIdxFrom p xs with
        | none => rw [hxs] at hf; cases hf
        | some j' =>
            rw [hxs] at hf
            simp only [Option.map_some', Option.some.injEq] at hf
            subst hf
            obtain ⟨a, ha, hpa⟩ := ih j' hxs
            exact ⟨a, by simpa using ha, hpa⟩

theorem findIdxFrom_set (p : α → Bool) (l : List α) (j : Nat) (v : α)
    (hf : findIdxFrom p l = some j) (hv : p v = true) :
    findIdxFrom p (l.set j v) = some j := by
  induction l generalizing j with
  | nil => simp [findIdxFrom] at hf
  | cons x xs ih =>
      rw [findIdxFrom] at hf
      by_cases hp : p x = true
      · rw [if_pos hp] at hf
        injection hf with hf
        subst hf
        rw [List.set_cons_zero, findIdxFrom, if_pos hv]
      · rw [if_neg (by simpa using hp)] at hf
        cases hxs : findIdxFrom p xs with
        | none => rw [hxs] at hf; cases hf
        | some j' =>
            rw [hxs] at hf
            simp only [Option.map_some', Option.some.injEq] at hf
            subst hf
            rw [List.set_cons_succ, findIdxFrom, if_neg (by simpa using hp), ih j' hxs,
              Option.map_some']

theorem set_append_cons (l m : List α) (x v : α) :
    (l ++ x :: m).set l.length v = l ++ v :: m := by
  induction l with
  | nil => rfl
  | cons y ys ih => rw [List.cons_append, List.length_cons, List.set_cons_succ, ih,
      List.cons_append]

theorem matchMsg_some (cid : String) (m : ChatMessage) (md : Option Metadata)
    (ps : List Part) (j : Nat) (h : matchMsg cid m = some (md, ps, j)) :
    m = ⟨.assistant, .parts ps, md⟩ ∧ findIdxFrom (partMatches cid) ps = some j := by
  obtain ⟨role, content, md'⟩ := m
  cases role <;> cases content <;> simp_all [matchMsg]
  obtain ⟨j', hj', h1, h2, h3⟩ := h
  subst h1; subst h2; subst h3
  exact ⟨⟨rfl, rfl⟩, hj'⟩

theorem upsertToolCall_eq_set (cid name : String) (input : JSVal) (msgs : List ChatMessage)
    (i : Nat) (md : Option Metadata) (ps : List Part) (j : Nat)
    (h : findFromEnd (matchMsg cid) msgs = some (i, md, ps, j)) :
    upsertToolCall cid name input msgs =
      msgs.set i ⟨.assistant, .parts (ps.set j (.toolCall cid name input)), md⟩ := by
  unfold upsertToolCall
  rw [h]

theorem upsertToolCall_eq_append (cid name : String) (input : JSVal) (msgs : List ChatMessage)
    (h : findFromEnd (matchMsg cid) msgs = none) :
    upsertToolCall cid name input msgs =
      msgs ++ [⟨.assistant, .parts [.toolCall cid name input], none⟩] := by
  unfold upsertToolCall
  rw [h]

example :
    foldSteps "s" 0 []
        [.toolInputStart "t1" "write",
         .toolCall "t1" "write" (.obj (.ofList [("path", .str "a.html")])),
         .toolError "t1" "write" (.str "disk full")] =
      [⟨.assistant, .parts [.toolCall "t1" "write" (.obj (.ofList [("path", .str "a.html")]))], none⟩,
       ⟨.tool, .parts [.toolResult "t1" "write" (.errorText "disk full")],
        some ⟨some true, none, none⟩⟩] := by decide

/-- C2: for two interleaved open/finalize pairs with distinct ids (open A,
open B, finalize B, finalize A) the backward scan attributes each
finalized input to its own ToolCall Part: the four events append exactly
two assistant Turns, the one for id A holding A's finalized input and the
one for id B holding B's finalized input, for any prior transcript. -/
theorem interleaved_tool_calls_attributed (sid : String) (now : Nat)
    (msgs : List ChatMessage) (idA idB nA nB : String) (iA iB : JSVal)
    (hne : idA ≠ idB) :
    foldSteps sid now msgs
        [Chunk.toolInputStart idA nA, Chunk.toolInputStart idB nB,
         Chunk.toolCall idB nB iB, Chunk.toolCall idA nA iA] =
      msgs ++ [⟨.assistant, .parts [.toolCall idA nA iA], none⟩,
               ⟨.assistant, .parts [.toolCall idB nB iB], none⟩] := by
  have hB0 : matchMsg idB (⟨.assistant, .parts [.toolCall idB nB (.obj .nil)], none⟩ : ChatMessage)
      = some (none, [Part.toolCall idB nB (.obj .nil)], 0) := by
    simp [matchMsg, findIdxFrom, partMatches]
  have h1 : findFromEnd (matchMsg idB)
      [(⟨.assistant, .parts [.toolCall idB nB (.obj .nil)], none⟩ : ChatMessage)]
      = some (0, none, [Part.toolCall idB nB (.obj .nil)], 0) := by
    simp [findFromEnd, hB0]
  have h2 := findFromEnd_append_some (matchMsg idB)
      (msgs ++ [⟨.assistant, .parts [.toolCall idA nA (.obj .nil)], none⟩]) _ _ _ h1
  rw [Nat.add_zero] at h2
  have hupB := upsertToolCall_eq_set idB nB iB _ _ _ _ _ h2
  rw [List.set_cons_zero, set_append_cons] at hupB
  have hB1 : matchMsg idA (⟨.assistant, .parts [.toolCall idB nB iB], none⟩ : ChatMessage)
      = none := by
    simp [matchMsg, findIdxFrom, partMatches, beq_eq_false_iff_ne.mpr (Ne.symm hne)]
  have h3 : findFromEnd (matchMsg idA)
      [(⟨.assistant, .parts [.toolCall idB nB iB], none⟩ : ChatMessage)] = none := by
    simp [findFromEnd, hB1]
  have hA0 : matchMsg idA (⟨.assistant, .parts [.toolCall idA nA (.obj .nil)], none⟩ : ChatMessage)
      = some (none, [Part.toolCall idA nA (.obj .nil)], 0) := by
    simp [matchMsg, findIdxFrom, partMatches]
  have h5 : findFromEnd (matchMsg idA)
      [(⟨.assistant, .parts [.toolCall idA nA (.obj .nil)], none⟩ : ChatMessage)]
      = some (0, none, [Part.toolCall idA nA (.obj .nil)], 0) := by
    simp [findFromEnd, hA0]
  have h6 := findFromEnd_append_some (matchMsg idA) msgs _ _ _ h5
  rw [Nat.add_zero] at h6
  have h7 := (findFromEnd_append_none (matchMsg idA) _ _ h3).trans h6
  have hupA := upsertToolCall_eq_set idA nA iA _ _ _ _ _ h7
  rw [List.set_cons_zero, List.append_assoc, List.singleton_append, set_append_cons] at hupA
  show upsertToolCall idA nA iA (upsertToolCall idB nB iB
      ((msgs ++ [⟨.assistant, .parts [.toolCall idA nA (.obj .nil)], none⟩]) ++
        [⟨.assistant, .parts [.toolCall idB nB (.obj .nil)], none⟩])) = _
  rw [hupB, List.append_assoc, List.singleton_append] at *
  rw [hupA]

/-- Witness for C2 at concrete ids, names and inputs. -/
theorem interleaved_tool_calls_attributed_witness :
    foldSteps "s" 0 []
        [Chunk.toolInputStart "a" "write", Chunk.toolInputStart "b" "edit",
         Chunk.toolCall "b" "edit" (.str "ib"), Chunk.toolCall "a" "write" (.str "ia")] =
      [⟨Role.assistant, Content.parts [Part.toolCall "a" "write" (.str "ia")], none⟩,
       ⟨Role.assistant, Content.parts [Part.toolCall "b" "edit" (.str "ib")], none⟩] := by
  have h := interleaved_tool_calls_attributed "s" 0 [] "a" "b" "write" "edit"
    (.str "ia") (.str "ib") (by decide)
  simpa using h

/-- C8: replaying the exact same finalized tool call twice (same id, name
and complete input) is idempotent: the second application leaves the
transcript value unchanged. -/
theorem upsert_tool_call_idempotent (sid : String) (now : Nat) (cid name : String)
    (input : JSVal) (msgs : List ChatMessage) :
    step sid now (step sid now msgs (Chunk.toolCall cid name input))
        (Chunk.toolCall cid name input) =
      step sid now msgs (Chunk.toolCall cid name input) := by
  show upsertToolCall cid name input (upsertToolCall cid name input msgs) =
    upsertToolCall cid name input msgs
  cases hf : findFromEnd (matchMsg cid) msgs with
  | none =>
      rw [upsertToolCall_eq_append cid name input msgs hf]
      have hT : matchMsg cid (⟨.assistant, .parts [.toolCall cid name input], none⟩ : ChatMessage)
          = some (none, [Part.toolCall cid name input], 0) := by
        simp [matchMsg, findIdxFrom, partMatches]
      have h1 : findFromEnd (matchMsg cid)
          [(⟨.assistant, .parts [.toolCall cid name input], none⟩ : ChatMessage)]
          = some (0, none, [Part.toolCall cid name input], 0) := by
        simp [findFromEnd, hT]
      have h2 := findFromEnd_append_some (matchMsg cid) msgs _ _ _ h1
      rw [Nat.add_zero] at h2
      rw [upsertToolCall_eq_set cid name input _ _ _ _ _ h2, List.set_cons_zero,
        set_append_cons]
  | some r =>
      obtain ⟨i, md, ps, j⟩ := r
      obtain ⟨a, hget, hmatch⟩ := findFromEnd_some_get _ _ _ _ hf
      obtain ⟨ha, hidx⟩ := matchMsg_some _ _ _ _ _ hmatch
      have hpm : partMatches cid (Part.toolCall cid name input) = true := by
        simp [partMatches]
      have hidx' := findIdxFrom_set _ _ _ _ hidx hpm
      have hM : matchMsg cid
          (⟨.assistant, .parts (ps.set j (.toolCall cid name input)), md⟩ : ChatMessage)
          = some (md, ps.set j (.toolCall cid name input), j) := by
        simp [matchMsg, hidx']
      have h2 := findFromEnd_set _ _ _ _ _ _ hf hM
      rw [upsertToolCall_eq_set cid name input msgs _ _ _ _ hf,
        upsertToolCall_eq_set cid name input _ _ _ _ _ h2,
        List.set_set, List.set_set]

/-- Growth of one content part between consecutive snapshots: unchanged,
or a tool-call part whose input was completed in place while the
correlation id stayed fixed. -/
def partGrows (p q : Part) : Prop :=
  p = q ∨ ∃ cid n1 i1 n2 i2, p = .toolCall cid n1 i1 ∧ q = .toolCall cid n2 i2

/-- Growth of content: plain text is only ever extended on the right; part
lists keep their length and grow pointwise. -/
def contentGrows : Content → Content → Prop
  | .text s, .text t => ∃ u, t = s ++ u
  | .parts ps, .parts qs =>
      ps.length = qs.length ∧
        ∀ (k : Nat) (p q : Part), ps[k]? = some p → qs[k]? = some q → partGrows p q
  | _, _ => False

/-- Growth of one Turn: role and metadata are fixed and content grows. -/
def turnGrows (a b : ChatMessage) : Prop :=
  a.role = b.role ∧ a.metadata = b.metadata ∧ contentGrows a.content b.content

/-- Extension of one transcript snapshot by the next: Turns are never
removed and each existing Turn only grows. -/
def growsInto (m1 m2 : List ChatMessage) : Prop :=
  m1.length ≤ m2.length ∧
    ∀ (k : Nat) (a b : ChatMessage), m1[k]? = some a → m2[k]? = some b → turnGrows a b

theorem partGrows_refl (p : Part) : partGrows p p := Or.inl rfl

theorem contentGrows_refl (c : Content) : contentGrows c c := by
  cases c with
  | text s => exact ⟨"", (String.append_empty s).symm⟩
  | parts ps =>
      refine ⟨rfl, fun k p q hp hq => ?_⟩
      rw [hp] at hq
      cases Option.some.inj hq
      exact partGrows_refl p

theorem turnGrows_refl (a : ChatMessage) : turnGrows a a :=
  ⟨rfl, rfl, contentGrows_refl a.content⟩

theorem growsInto_refl (m : List ChatMessage) : growsInto m m := by
  refine ⟨Nat.le_refl _, fun k a b ha hb => ?_⟩
  rw [ha] at hb
  cases Option.some.inj hb
  exact turnGrows_refl a

theorem partGrows_trans (p q r : Part) (h1 : partGrows p q) (h2 : partGrows q r) :
    partGrows p r := by
  cases h1 with
  | inl h => rw [h]; exact h2
  | inr h =>
      obtain ⟨cid, n1, i1, n2, i2, hp, hq⟩ := h
      cases h2 with
      | inl h => rw [← h]; exact Or.inr ⟨cid, n1, i1, n2, i2, hp, hq⟩
      | inr h =>
          obtain ⟨cid', n1', i1', n2', i2', hq', hr⟩ := h
          rw [hq] at hq'
          injection hq' with e1 e2 e3
          exact Or.inr ⟨cid, n1, i1, n2', i2', hp, by rw [hr, ← e1]⟩

theorem contentGrows_trans (c1 c2 c3 : Content) (h1 : contentGrows c1 c2)
    (h2 : contentGrows c2 c3) : contentGrows c1 c3 := by
  cases c1 with
  | text s =>
      cases c2 with
      | text t =>
          cases c3 with
          | text u =>
              obtain ⟨a, ha⟩ := h1
              obtain ⟨b, hb⟩ := h2
              exact ⟨a ++ b, by rw [hb, ha, String.append_assoc]⟩
          | parts _ => exact False.elim h2
      | parts _ => exact False.elim h1
  | parts ps =>
      cases c2 with
      | text _ => exact False.elim h1
      | parts qs =>
          cases c3 with
          | text _ => exact False.elim h2
          | parts rs =>
              obtain ⟨hl1, hp1⟩ := h1
              obtain ⟨hl2, hp2⟩ := h2
              refine ⟨hl1.trans hl2, fun k p r hp hr => ?_⟩
              have hk : k < qs.length := by
                obtain ⟨hlt, _⟩ := List.getElem?_eq_some.mp hp
                rw [← hl1]; exact hlt
              have hq : qs[k]? = some qs[k] := List.getElem?_eq_getElem hk
              exact partGrows_trans _ _ _ (hp1 k p _ hp hq) (hp2 k _ r hq hr)

theorem turnGrows_trans (a b c : ChatMessage) (h1 : turnGrows a b) (h2 : turnGrows b c) :
    turnGrows a c :=
  ⟨h1.1.trans h2.1, h1.2.1.trans h2.2.1,
    contentGrows_trans _ _ _ h1.2.2 h2.2.2⟩

theorem growsInto_trans (m1 m2 m3 : List ChatMessage) (h1 : growsInto m1 m2)
    (h2 : growsInto m2 m3) : growsInto m1 m3 := by
  refine ⟨h1.1.trans h2.1, fun k a c ha hc => ?_⟩
  have hk : k < m2.length := by
    obtain ⟨hlt, _⟩ := List.getElem?_eq_some.mp ha
    exact Nat.lt_of_lt_of_le hlt h1.1
  have hb : m2[k]? = some m2[k] := List.getElem?_eq_getElem hk
  exact turnGrows_trans _ _ _ (h1.2 k a _ ha hb) (h2.2 k _ c hb hc)

theorem growsInto_append (msgs l : List ChatMessage) : growsInto msgs (msgs ++ l) := by
  refine ⟨by simp, fun k a b ha hb => ?_⟩
  obtain ⟨hlt, _⟩ := List.getElem?_eq_some.mp ha
  rw [List.getElem?_append_left hlt] at hb
  rw [ha] at hb
  cases Option.some.inj hb
  exact turnGrows_refl a

theorem growsInto_concat_last (init : List ChatMessage) (m m' : ChatMessage)
    (h : turnGrows m m') : growsInto (init ++ [m]) (init ++ [m']) := by
  refine ⟨by simp, fun k a b ha hb => ?_⟩
  by_cases hk : k < init.length
  · rw [List.getElem?_append_left hk] at ha hb
    rw [ha] at hb
    cases Option.some.inj hb
    exact turnGrows_refl a
  · have hkeq : k = init.length := by
      obtain ⟨hlt, _⟩ := List.getElem?_eq_some.mp ha
      simp only [List.length_append, List.length_cons, List.length_nil] at hlt
      omega
    subst hkeq
    rw [List.getElem?_concat_length] at ha hb
    cases Option.some.inj ha
    cases Option.some.inj hb
    exact h

theorem growsInto_set (msgs : List ChatMessage) (i : Nat) (a v : ChatMessage)
    (hget : msgs[i]? = some a) (h : turnGrows a v) : growsInto msgs (msgs.set i v) := by
  refine ⟨by rw [List.length_set], fun k x y hx hy => ?_⟩
  by_cases hk : k = i
  · subst hk
    rw [hget] at hx
    cases Option.some.inj hx
    have hlt : k < msgs.length := (List.getElem?_eq_some.mp hget).1
    rw [List.getElem?_set_eq_of_lt _ hlt] at hy
    cases Option.some.inj hy
    exact h
  · rw [List.getElem?_set_ne (fun e => hk e.symm)] at hy
    rw [hx] at hy
    cases Option.some.inj hy
    exact turnGrows_refl x

theorem partMatches_eq (cid : String) (q : Part) (h : partMatches cid q = true) :
    ∃ n inp, q = .toolCall cid n inp := by
  cases q with
  | toolCall id n inp =>
      simp only [partMatches, beq_iff_eq] at h
      exact ⟨n, inp, by rw [h]⟩
  | textPart t => simp [partMatches] at h
  | filePart d => simp [partMatches] at h
  | reasoning t => simp [partMatches] at h
  | toolResult a b c => simp [partMatches] at h

theorem canMergeLast_concat (init : List ChatMessage) (m : ChatMessage) :
    canMergeLast (init ++ [m]) = canMergeText m := by
  unfold canMergeLast
  rw [List.getLast?_concat]

theorem canMergeText_eq_true (m : ChatMessage) (h : canMergeText m = true) :
    ∃ s md, m = ⟨.assistant, .text s, md⟩ ∧ (md.bind Metadata.is_error) ≠ some true := by
  obtain ⟨role, content, md⟩ := m
  cases role with
  | assistant =>
      cases content with
      | text s => exact ⟨s, md, rfl, fun hx => by simp [canMergeText, hx] at h⟩
      | parts ps => exact absurd h (by simp [canMergeText])
  | user =>
      cases content with
      | text s => exact absurd h (by simp [canMergeText])
      | parts ps => exact absurd h (by simp [canMergeText])
  | system =>
      cases content with
      | text s => exact absurd h (by simp [canMergeText])
      | parts ps => exact absurd h (by simp [canMergeText])
  | tool =>
      cases content with
      | text s => exact absurd h (by simp [canMergeText])
      | parts ps => exact absurd h (by simp [canMergeText])

/-- Every single reducer transition only grows the transcript. -/
theorem step_growsInto (sid : String) (now : Nat) (msgs : List ChatMessage) (c : Chunk) :
    growsInto msgs (step sid now msgs c) := by
  cases c with
  | textDelta t =>
      show growsInto msgs (mergeTextDelta t msgs)
      induction msgs using List.reverseRecOn with
      | nil => exact growsInto_append [] _
      | append_singleton init m _ =>
          by_cases hcm : canMergeText m = true
          · obtain ⟨s, md, hm, hmd⟩ := canMergeText_eq_true m hcm
            subst hm
            rw [mergeTextDelta_merge t s init md hmd]
            exact growsInto_concat_last init _ _ ⟨rfl, rfl, ⟨t, rfl⟩⟩
          · rw [mergeTextDelta_append t _ (by
              rw [canMergeLast_concat]
              exact eq_false_of_ne_true hcm)]
            exact growsInto_append _ _
  | finish r => exact growsInto_refl msgs
  | error e => exact growsInto_append _ _
  | toolInputStart cid name => exact growsInto_append _ _
  | toolInputDelta => exact growsInto_refl msgs
  | toolCall cid name input =>
      show growsInto msgs (upsertToolCall cid name input msgs)
      cases hf : findFromEnd (matchMsg cid) msgs with
      | none =>
          rw [upsertToolCall_eq_append _ _ _ _ hf]
          exact growsInto_append _ _
      | some r =>
          obtain ⟨i, md, ps, j⟩ := r
          rw [upsertToolCall_eq_set _ _ _ _ _ _ _ _ hf]
          obtain ⟨a, hget, hmatch⟩ := findFromEnd_some_get _ _ _ _ hf
          obtain ⟨ha, hidx⟩ := matchMsg_some _ _ _ _ _ hmatch
          obtain ⟨q, hq, hpq⟩ := findIdxFrom_some_get _ _ _ hidx
          obtain ⟨n0, i0, hq0⟩ := partMatches_eq _ _ hpq
          subst ha
          refine growsInto_set msgs i ⟨Role.assistant, Content.parts ps, md⟩ _ hget
            ⟨rfl, rfl, ?_⟩
          refine ⟨(List.length_set ps j _).symm, fun k p p' hp hp' => ?_⟩
          by_cases hk : k = j
          · subst hk
            rw [hq] at hp
            cases Option.some.inj hp
            have hlt : k < ps.length := (List.getElem?_eq_some.mp hq).1
            rw [List.getElem?_set_eq_of_lt _ hlt] at hp'
            cases Option.some.inj hp'
            rw [hq0]
            exact Or.inr ⟨cid, n0, i0, name, input, rfl, rfl⟩
          · rw [List.getElem?_set_ne (fun e => hk e.symm)] at hp'
            rw [hp] at hp'
            cases Option.some.inj hp'
            exact partGrows_refl p
  | filePayload => exact growsInto_refl msgs
  | abortPayload => exact growsInto_refl msgs
  | sourcePayload => exact growsInto_refl msgs
  | toolResult cid name out => exact growsInto_append _ _
  | toolError cid name err => exact growsInto_append _ _
  | structural => exact growsInto_refl msgs

theorem runLoop_chain (sid : String) (clock : Nat → Nat) (ab : Nat → Bool)
    (cs : List Chunk) :
    ∀ msgs i, List.Chain growsInto msgs
      ((runLoop sid clock ab msgs i cs).1 ++ [(runLoop sid clock ab msgs i cs).2.1]) := by
  induction cs with
  | nil =>
      intro msgs i
      exact List.Chain.cons (growsInto_refl msgs) List.Chain.nil
  | cons c cs ih =>
      intro msgs i
      by_cases hab : ab i = true
      · have hr : runLoop sid clock ab msgs i (c :: cs) = ([], msgs, true) := by
          rw [runLoop, if_pos hab]
        rw [hr]
        exact List.Chain.cons (growsInto_refl msgs) List.Chain.nil
      · have hr : runLoop sid clock ab msgs i (c :: cs) =
            ((step sid (clock i) msgs c) ::
                (runLoop sid clock ab (step sid (clock i) msgs c) (i + 1) cs).1,
             (runLoop sid clock ab (step sid (clock i) msgs c) (i + 1) cs).2.1,
             (runLoop sid clock ab (step sid (clock i) msgs c) (i + 1) cs).2.2) := by
          rw [runLoop, if_neg hab]
        rw [hr]
        exact List.Chain.cons (step_growsInto _ _ _ _) (ih _ _)

theorem chain_concat_trans (R : List ChatMessage → List ChatMessage → Prop)
    (htrans : ∀ a b c, R a b → R b c → R a c)
    (l : List (List ChatMessage)) (a b c : List ChatMessage)
    (h : List.Chain R a (l ++ [b])) (hbc : R b c) :
    List.Chain R a (l ++ [c]) := by
  induction l generalizing a with
  | nil =>
      cases h with
      | cons hab hnil => exact List.Chain.cons (htrans _ _ _ hab hbc) List.Chain.nil
  | cons x xs ih =>
      cases h with
      | cons hax hx => exact List.Chain.cons hax (ih _ hx)

theorem chain_of_chain_concat (R : List ChatMessage → List ChatMessage → Prop)
    (l : List (List ChatMessage)) (a b : List ChatMessage)
    (h : List.Chain R a (l ++ [b])) : List.Chain R a l := by
  induction l generalizing a with
  | nil => exact List.Chain.nil
  | cons x xs ih =>
      cases h with
      | cons hax hx => exact List.Chain.cons hax (ih _ hx)

/-- C4: across one turn the snapshots handed to the observer are
monotonically growing and never retracted: each snapshot (including the
final one emitted by the catch block on cancellation) extends the previous
one in the sense of `growsInto` — the number of Turns never decreases and
an existing Turn only changes by text concatenation onto its plain-text
content or by completion of a tool-call part's input under a fixed id. -/
theorem snapshots_monotone (now errNow : Nat) (clock : Nat → Nat) (ab : Nat → Bool)
    (history : List ChatMessage) (chunks : List Chunk) :
    List.Chain growsInto history (query now errNow clock ab history chunks).1 := by
  unfold query
  by_cases hc : (runLoop ("session_" ++ toString now) clock ab history 0 chunks).2.2 = true
  · simp only [hc, if_true]
    exact chain_concat_trans growsInto growsInto_trans _ _ _ _
      (runLoop_chain _ clock ab chunks history 0)
      (growsInto_append _ _)
  · simp only [eq_false_of_ne_true hc, if_false]
    exact chain_of_chain_concat growsInto _ _ _ (runLoop_chain _ clock ab chunks history 0)

/-- C5: if the abort signal is set before the first chunk and the stream
has at least one chunk, the turn produces exactly one observer emission,
whose only addition over the history is a single error Turn carrying the
session id fixed at turn start; the returned transcript equals that
emission and `query` re-raises the cancellation (the `true` flag). -/
theorem cancellation_before_first_event (now errNow : Nat) (clock : Nat → Nat)
    (ab : Nat → Bool) (history : List ChatMessage) (chunks : List Chunk)
    (hab : ab 0 = true) (hne : chunks ≠ []) :
    query now errNow clock ab history chunks =
      ([history ++ [errorTurn "Operation cancelled" errNow ("session_" ++ toString now)]],
       history ++ [errorTurn "Operation cancelled" errNow ("session_" ++ toString now)],
       true) := by
  obtain ⟨c, cs, rfl⟩ : ∃ c cs, chunks = c :: cs := by
    cases chunks with
    | nil => exact absurd rfl hne
    | cons c cs => exact ⟨c, cs, rfl⟩
  have hr : runLoop ("session_" ++ toString now) clock ab history 0 (c :: cs)
      = ([], history, true) := by
    rw [runLoop, if_pos hab]
  unfold query
  rw [hr]
  rfl

/-- Witness for C5 at a concrete history and stream. -/
theorem cancellation_before_first_event_witness :
    query 5 7 (fun i => i) (fun _ => true) [] [Chunk.finish "stop"] =
      ([[errorTurn "Operation cancelled" 7 "session_5"]],
       [errorTurn "Operation cancelled" 7 "session_5"], true) := by
  have h := cancellation_before_first_event 5 7 (fun i => i) (fun _ => true) []
    [Chunk.finish "stop"] rfl (by decide)
  exact h.trans (by decide)

/-- C6: the scenario stream tool-call-opened(t1), tool-call-finalized(t1,
input `(path := "a.html")`), tool-error(t1, "disk full") yields an
assistant Turn holding exactly one ToolCall Part with the finalized input,
followed by a tool Turn holding exactly one ToolResult Part whose output
is of the error-text kind and whose metadata has `is_error = true`. -/
theorem tool_error_scenario :
    foldSteps "session_0" 0 []
        [Chunk.toolInputStart "t1" "write",
         Chunk.toolCall "t1" "write" (.obj (.ofList [("path", .str "a.html")])),
         Chunk.toolError "t1" "write" (.str "disk full")] =
      [⟨Role.assistant,
        Content.parts [Part.toolCall "t1" "write" (.obj (.ofList [("path", .str "a.html")]))],
        none⟩,
       ⟨Role.tool,
        Content.parts [Part.toolResult "t1" "write" (ToolOutput.errorText "disk full")],
        some ⟨some true, none, none⟩⟩] := by decide

/-- C7: a stream-error event appends exactly one assistant Turn whose
plain-text content is the normalized error message and whose metadata is
the error flag, a timestamp and the session id, with the session id fixed at
turn start; the loop then continues to process the remaining events and
never cancels while the abort signal stays unset. -/
theorem stream_error_appends_and_continues (sid : String) (clock : Nat → Nat)
    (ab : Nat → Bool) (msgs : List ChatMessage) (e : JSVal) (rest : List Chunk) (i : Nat)
    (hab : ∀ j, ab j = false) :
    runLoop sid clock ab msgs i (Chunk.error e :: rest) =
      ((msgs ++ [errorTurn (extractErrorMessage e) (clock i) sid]) ::
          (runLoop sid clock ab
            (msgs ++ [errorTurn (extractErrorMessage e) (clock i) sid]) (i + 1) rest).1,
       (runLoop sid clock ab
          (msgs ++ [errorTurn (extractErrorMessage e) (clock i) sid]) (i + 1) rest).2.1,
       false) := by
  have hnc : ∀ (cs : List Chunk) (m : List ChatMessage) (j : Nat),
      (runLoop sid clock ab m j cs).2.2 = false := by
    intro cs
    induction cs with
    | nil => intro m j; rfl
    | cons c cs ih =>
        intro m j
        rw [runLoop, if_neg (by simp [hab j])]
        exact ih _ _
  rw [runLoop, if_neg (by simp [hab i])]
  have hstep : step sid (clock i) msgs (Chunk.error e) =
      msgs ++ [errorTurn (extractErrorMessage e) (clock i) sid] := rfl
  rw [hstep, hnc]

/-- Witness for C7 at a concrete stream-error payload followed by a text
fragment that the loop still processes. -/
theorem stream_error_appends_and_continues_witness :
    runLoop "session_1" (fun _ => 2) (fun _ => false) [] 0
        [Chunk.error (.str "boom"), Chunk.textDelta "hi"] =
      ([[errorTurn "boom" 2 "session_1"],
        [errorTurn "boom" 2 "session_1", ⟨Role.assistant, Content.text "hi", none⟩]],
       [errorTurn "boom" 2 "session_1", ⟨Role.assistant, Content.text "hi", none⟩],
       false) := by
  have h := stream_error_appends_and_continues "session_1" (fun _ => 2) (fun _ => false)
    [] (.str "boom") [Chunk.textDelta "hi"] 0 (fun j => rfl)
  exact h.trans (by decide)

/-- C9 counterexample: the plain string "Unknown error occurred" is
returned verbatim, so the generic message is also returned for an input
that is neither null nor undefined; the only-if direction of the claim
fails. -/
theorem extract_error_message_generic_not_only_null :
    extractErrorMessage (.str "Unknown error occurred") = "Unknown error occurred" ∧
      ¬(JSVal.str "Unknown error occurred" = JSVal.null ∨
        JSVal.str "Unknown error occurred" = JSVal.undef) := by decide

/-- C9 amended: the generic fallback is produced for null and undefined
(but another branch can coincidentally return the same string, e.g. the
string input itself); a plain string is returned verbatim; an Error
instance yields its message; an object with a string `message` and a
string `type` yields "type: message"; an object with a string `message`
and no string `type` yields the message; any other object is
JSON-stringified; any other value is converted with `String()`. -/
theorem extract_error_message_spec :
    (extractErrorMessage .null = "Unknown error occurred" ∧
     extractErrorMessage .undef = "Unknown error occurred") ∧
    (∀ s, extractErrorMessage (.str s) = s) ∧
    (∀ m, extractErrorMessage (.errInstance m) = m) ∧
    (∀ fields m t, getStrField fields "message" = some m →
        getStrField fields "type" = some t →
        extractErrorMessage (.obj fields) = t ++ ": " ++ m) ∧
    (∀ fields m, getStrField fields "message" = some m →
        getStrField fields "type" = none →
        extractErrorMessage (.obj fields) = m) ∧
    (∀ fields, getStrField fields "message" = none →
        extractErrorMessage (.obj fields) = jsonStringify (.obj fields)) ∧
    (∀ n, extractErrorMessage (.num n) = jsString (.num n)) ∧
    (∀ b, extractErrorMessage (.boolean b) = jsString (.boolean b)) ∧
    (∀ f, extractErrorMessage (.func f) = jsString (.func f)) := by
  refine ⟨⟨rfl, rfl⟩, fun s => rfl, fun m => rfl, ?_, ?_, ?_,
    fun n => rfl, fun b => rfl, fun f => rfl⟩
  · intro fields m t hm ht
    simp [extractErrorMessage, hm, ht]
  · intro fields m hm ht
    simp [extractErrorMessage, hm, ht]
  · intro fields hm
    simp [extractErrorMessage, hm]

/-- Witness for the amended C9 on a typed error object. -/
theorem extract_error_message_spec_witness :
    extractErrorMessage (.obj (.ofList [("type", .str "api"), ("message", .str "bad")]))
      = "api: bad" := by
  have h := extract_error_message_spec
  exact h.2.2.2.1 (.ofList [("type", .str "api"), ("message", .str "bad")]) "bad" "api"
    (by decide) (by decide)

theorem take_set_of_le (l : List α) (i k : Nat) (v : α) (h : k ≤ i) :
    (l.set i v).take k = l.take k := by
  induction l generalizing i k with
  | nil => rfl
  | cons x xs ih =>
      cases i with
      | zero =>
          have hk : k = 0 := Nat.le_zero.mp h
          subst hk
          rfl
      | succ n =>
          cases k with
          | zero => rfl
          | succ m =>
              rw [List.set_cons_succ, List.take_succ_cons, List.take_succ_cons,
                ih n m (Nat.le_of_succ_le_succ h)]

/-- One reducer transition keeps every history Turn other than the last
unchanged at its position, as long as a tool-call chunk's id does not
occur among the history's ToolCall Parts. -/
theorem step_preserves_prefix (sid : String) (now : Nat)
    (history msgs : List ChatMessage) (c : Chunk)
    (hc : ∀ cid n inp, c = Chunk.toolCall cid n inp → hasToolCallId cid history = false)
    (h1 : msgs.take (history.length - 1) = history.take (history.length - 1))
    (h2 : history.length ≤ msgs.length) :
    (step sid now msgs c).take (history.length - 1) =
        history.take (history.length - 1) ∧
      history.length ≤ (step sid now msgs c).length := by
  have hk : history.length - 1 ≤ msgs.length := by omega
  cases c with
  | textDelta t =>
      show (mergeTextDelta t msgs).take (history.length - 1) = _ ∧
        history.length ≤ (mergeTextDelta t msgs).length
      induction msgs using List.reverseRecOn with
      | nil =>
          have h0 : history.length = 0 := by
            simpa using h2
          constructor
          · rw [h0]
            rfl
          · rw [h0]
            exact Nat.zero_le _
      | append_singleton init m _ =>
          by_cases hcm : canMergeText m = true
          · obtain ⟨s, md, hm, hmd⟩ := canMergeText_eq_true m hcm
            subst hm
            rw [mergeTextDelta_merge t s init md hmd]
            have hinit : history.length - 1 ≤ init.length := by
              simp only [List.length_append, List.length_cons, List.length_nil] at h2
              omega
            rw [List.take_append_of_le_length hinit] at h1
            constructor
            · rw [List.take_append_of_le_length hinit, h1]
            · simp only [List.length_append, List.length_cons, List.length_nil] at h2 ⊢
              omega
          · rw [mergeTextDelta_append t _ (by
              rw [canMergeLast_concat]
              exact eq_false_of_ne_true hcm)]
            constructor
            · rw [List.take_append_of_le_length hk, h1]
            · rw [List.length_append]
              omega
  | finish r => exact ⟨h1, h2⟩
  | error e =>
      simp only [step]
      refine ⟨?_, by rw [List.length_append]; omega⟩
      rw [List.take_append_of_le_length hk, h1]
  | toolInputStart cid name =>
      simp only [step]
      refine ⟨?_, by rw [List.length_append]; omega⟩
      rw [List.take_append_of_le_length hk, h1]
  | toolInputDelta => exact ⟨h1, h2⟩
  | toolCall cid name inp =>
      have hT : hasToolCallId cid history = false := hc cid name inp rfl
      show (upsertToolCall cid name inp msgs).take (history.length - 1) = _ ∧
        history.length ≤ (upsertToolCall cid name inp msgs).length
      cases hf : findFromEnd (matchMsg cid) msgs with
      | none =>
          rw [upsertToolCall_eq_append _ _ _ _ hf]
          refine ⟨?_, by rw [List.length_append]; omega⟩
          rw [List.take_append_of_le_length hk, h1]
      | some r =>
          obtain ⟨i, md, ps, j⟩ := r
          rw [upsertToolCall_eq_set _ _ _ _ _ _ _ _ hf]
          have hge : history.length - 1 ≤ i := by
            by_contra hlt
            push_neg at hlt
            obtain ⟨a, hget, hmatch⟩ := findFromEnd_some_get _ _ _ _ hf
            have htk : (msgs.take (history.length - 1))[i]? = some a := by
              rw [List.getElem?_take, if_pos hlt]
              exact hget
            rw [h1, List.getElem?_take, if_pos hlt] at htk
            have hmem : a ∈ history := List.getElem?_mem htk
            have : hasToolCallId cid history = true :=
              List.any_eq_true.mpr ⟨a, hmem, by rw [hmatch]; rfl⟩
            rw [hT] at this
            cases this
          constructor
          · rw [take_set_of_le _ _ _ _ hge, h1]
          · rw [List.length_set]
            exact h2
  | filePayload => exact ⟨h1, h2⟩
  | abortPayload => exact ⟨h1, h2⟩
  | sourcePayload => exact ⟨h1, h2⟩
  | toolResult cid name out =>
      simp only [step]
      refine ⟨?_, by rw [List.length_append]; omega⟩
      rw [List.take_append_of_le_length hk, h1]
  | toolError cid name err =>
      simp only [step]
      refine ⟨?_, by rw [List.length_append]; omega⟩
      rw [List.take_append_of_le_length hk, h1]
  | structural => exact ⟨h1, h2⟩

theorem runLoop_preserves_prefix (sid : String) (clock : Nat → Nat) (ab : Nat → Bool)
    (history : List ChatMessage) :
    ∀ (cs : List Chunk) (msgs : List ChatMessage) (i : Nat),
      (∀ cid n inp, Chunk.toolCall cid n inp ∈ cs → hasToolCallId cid history = false) →
      msgs.take (history.length - 1) = history.take (history.length - 1) →
      history.length ≤ msgs.length →
      (∀ s, s ∈ (runLoop sid clock ab msgs i cs).1 →
          s.take (history.length - 1) = history.take (history.length - 1) ∧
            history.length ≤ s.length) ∧
      ((runLoop sid clock ab msgs i cs).2.1.take (history.length - 1) =
          history.take (history.length - 1) ∧
        history.length ≤ (runLoop sid clock ab msgs i cs).2.1.length) := by
  intro cs
  induction cs with
  | nil =>
      intro msgs i hcs h1 h2
      exact ⟨fun s hs => absurd hs (List.not_mem_nil s), h1, h2⟩
  | cons c cs ih =>
      intro msgs i hcs h1 h2
      by_cases hab : ab i = true
      · have hr : runLoop sid clock ab msgs i (c :: cs) = ([], msgs, true) := by
          rw [runLoop, if_pos hab]
        rw [hr]
        exact ⟨fun s hs => absurd hs (List.not_mem_nil s), h1, h2⟩
      · have hr : runLoop sid clock ab msgs i (c :: cs) =
            ((step sid (clock i) msgs c) ::
                (runLoop sid clock ab (step sid (clock i) msgs c) (i + 1) cs).1,
             (runLoop sid clock ab (step sid (clock i) msgs c) (i + 1) cs).2.1,
             (runLoop sid clock ab (step sid (clock i) msgs c) (i + 1) cs).2.2) := by
          rw [runLoop, if_neg hab]
        rw [hr]
        obtain ⟨h1', h2'⟩ := step_preserves_prefix sid (clock i) history msgs c
          (fun cid n inp hc => hcs cid n inp (hc ▸ List.mem_cons_self c cs)) h1 h2
        have hrest := ih (step sid (clock i) msgs c) (i + 1)
          (fun cid n inp hm => hcs cid n inp (List.mem_cons_of_mem c hm)) h1' h2'
        refine ⟨fun s hs => ?_, hrest.2⟩
        cases List.mem_cons.mp hs with
        | inl he => rw [he]; exact ⟨h1', h2'⟩
        | inr hm => exact hrest.1 s hm

/-- C10 counterexample: a tool-call-finalized event whose id matches a
ToolCall Part held by a non-last history Turn rewrites that history Turn
in place in the emitted snapshot, so a history Turn other than the last
does not appear unchanged at its position -- the claim as stated fails. -/
theorem history_turn_rewritten_counterexample :
    (runLoop "session_0" (fun _ => 0) (fun _ => false)
        [⟨Role.assistant, Content.parts [Part.toolCall "t1" "write" (JSVal.obj .nil)], none⟩,
         ⟨Role.user, Content.text "hi", none⟩] 0
        [Chunk.toolCall "t1" "write" (JSVal.obj (.ofList [("path", JSVal.str "a.html")]))]).1 =
      [[⟨Role.assistant,
         Content.parts
           [Part.toolCall "t1" "write" (JSVal.obj (.ofList [("path", JSVal.str "a.html")]))],
         none⟩,
        ⟨Role.user, Content.text "hi", none⟩]] ∧
    (⟨Role.assistant,
       Content.parts
         [Part.toolCall "t1" "write" (JSVal.obj (.ofList [("path", JSVal.str "a.html")]))],
       none⟩ : ChatMessage) ≠
      ⟨Role.assistant, Content.parts [Part.toolCall "t1" "write" (JSVal.obj .nil)], none⟩ := by
  decide

/-- C10 amended: every history Turn other than the last appears unchanged
at its position in every emitted snapshot and in the returned transcript,
PROVIDED no tool-call-finalized event of the stream carries an id that
already occurs as a ToolCall Part id somewhere in the history (the
backward scan of the tool-call case rewrites such a Turn otherwise); and
if the history ends with an assistant Turn with plain-text content and no
error flag, the stream's first text fragment is concatenated onto that
Turn rather than starting a new one. -/
theorem history_preserved_except_merge_and_matched_calls
    (now errNow : Nat) (clock : Nat → Nat) (ab : Nat → Bool)
    (history : List ChatMessage) (chunks : List Chunk)
    (hids : ∀ cid n inp, Chunk.toolCall cid n inp ∈ chunks →
      hasToolCallId cid history = false) :
    (∀ s, s ∈ (query now errNow clock ab history chunks).1 →
        s.take (history.length - 1) = history.take (history.length - 1) ∧
          history.length ≤ s.length) ∧
    ((query now errNow clock ab history chunks).2.1.take (history.length - 1) =
        history.take (history.length - 1) ∧
      history.length ≤ (query now errNow clock ab history chunks).2.1.length) ∧
    (∀ init s md t rest, history = init ++ [⟨Role.assistant, Content.text s, md⟩] →
        (md.bind Metadata.is_error) ≠ some true →
        chunks = Chunk.textDelta t :: rest → ab 0 = false →
        (query now errNow clock ab history chunks).1.head? =
          some (init ++ [⟨Role.assistant, Content.text (s ++ t), md⟩])) := by
  have hbase := runLoop_preserves_prefix ("session_" ++ toString now) clock ab history
    chunks history 0 hids rfl (Nat.le_refl _)
  have hk : history.length - 1 ≤ (runLoop ("session_" ++ toString now) clock ab history 0
      chunks).2.1.length := by
    have := hbase.2.2
    omega
  refine ⟨?_, ?_, ?_⟩
  · intro s hs
    unfold query at hs
    by_cases hc : (runLoop ("session_" ++ toString now) clock ab history 0 chunks).2.2 = true
    · rw [if_pos hc] at hs
      cases List.mem_append.mp hs with
      | inl hm => exact hbase.1 s hm
      | inr hm =>
          rw [List.mem_singleton.mp hm]
          constructor
          · rw [List.take_append_of_le_length hk]
            exact hbase.2.1
          · rw [List.length_append]
            have := hbase.2.2
            omega
    · rw [if_neg hc] at hs
      exact hbase.1 s hs
  · unfold query
    by_cases hc : (runLoop ("session_" ++ toString now) clock ab history 0 chunks).2.2 = true
    · rw [if_pos hc]
      constructor
      · rw [List.take_append_of_le_length hk]
        exact hbase.2.1
      · rw [List.length_append]
        have := hbase.2.2
        omega
    · rw [if_neg hc]
      exact hbase.2
  · intro init s md t rest hh hmd hch hab0
    subst hh
    subst hch
    have hstep : step ("session_" ++ toString now) (clock 0)
        (init ++ [⟨Role.assistant, Content.text s, md⟩]) (Chunk.textDelta t) =
        init ++ [⟨Role.assistant, Content.text (s ++ t), md⟩] :=
      mergeTextDelta_merge t s init md hmd
    have hr : runLoop ("session_" ++ toString now) clock ab
        (init ++ [⟨Role.assistant, Content.text s, md⟩]) 0
        (Chunk.textDelta t :: rest) =
        ((init ++ [⟨Role.assistant, Content.text (s ++ t), md⟩]) ::
            (runLoop ("session_" ++ toString now) clock ab
              (init ++ [⟨Role.assistant, Content.text (s ++ t), md⟩]) 1 rest).1,
         (runLoop ("session_" ++ toString now) clock ab
            (init ++ [⟨Role.assistant, Content.text (s ++ t), md⟩]) 1 rest).2.1,
         (runLoop ("session_" ++ toString now) clock ab
            (init ++ [⟨Role.assistant, Content.text (s ++ t), md⟩]) 1 rest).2.2) := by
      rw [runLoop, if_neg (by simp [hab0]), hstep]
    unfold query
    rw [hr]
    by_cases hc : (runLoop ("session_" ++ toString now) clock ab
        (init ++ [⟨Role.assistant, Content.text (s ++ t), md⟩]) 1 rest).2.2 = true
    · rw [if_pos hc]
      simp
    · rw [if_neg hc]
      simp

/-- Witness for the amended C10: a history whose last Turn is a mergeable
assistant text Turn, one text fragment, no tool calls. -/
theorem history_preserved_witness :
    (query 0 0 (fun _ => 0) (fun _ => false)
        [⟨Role.user, Content.text "q", none⟩, ⟨Role.assistant, Content.text "A", none⟩]
        [Chunk.textDelta "B"]).1.head? =
      some [⟨Role.user, Content.text "q", none⟩,
            ⟨Role.assistant, Content.text "AB", none⟩] := by
  have h := history_preserved_except_merge_and_matched_calls 0 0 (fun _ => 0) (fun _ => false)
    [⟨Role.user, Content.text "q", none⟩, ⟨Role.assistant, Content.text "A", none⟩]
    [Chunk.textDelta "B"]
    (by
      intro cid n inp hm
      simp at hm)
  exact h.2.2 [⟨Role.user, Content.text "q", none⟩] "A" none "B" [] rfl (by simp) rfl rfl

/-- Reference-semantics model of the transcript array object of `query`:
`heap k` is the current contents of the array object with identity `k`,
`cur` is the identity currently bound to `updatedMessages`, and `next` is
the next fresh identity.  Reassignments `updatedMessages = [...]` allocate
a fresh identity; the element assignment `updatedMessages[i] = msg` of the
tool-call case updates the already-allocated array object in place. -/
structure RefState where
  next : Nat
  heap : Nat → List ChatMessage
  cur : Nat

/-- Allocates a fresh array object holding `v` and points
`updatedMessages` at it. -/
def alloc (st : RefState) (v : List ChatMessage) : RefState :=
  ⟨st.next + 1, fun k => if k = st.next then v else st.heap k, st.next⟩

/-- One `switch` dispatch under reference semantics: branches that execute
`updatedMessages = [...]` allocate a fresh array object; no-op branches
leave the state alone; the tool-call case with a matching open call
executes `updatedMessages[i] = msg`, an in-place update of the current
array object (its identity `cur` is unchanged). -/
def refStep (sid : String) (now : Nat) (st : RefState) : Chunk → RefState
  | .textDelta t => alloc st (mergeTextDelta t (st.heap st.cur))
  | .finish _ => st
  | .error e => alloc st (st.heap st.cur ++ [errorTurn (extractErrorMessage e) now sid])
  | .toolInputStart cid name =>
      alloc st (st.heap st.cur ++
        [⟨.assistant, .parts [.toolCall cid name (.obj .nil)], none⟩])
  | .toolInputDelta => st
  | .toolCall cid name input =>
      match findFromEnd (matchMsg cid) (st.heap st.cur) with
      | some (i, md, ps, j) =>
          ⟨st.next,
           fun k =>
             if k = st.cur then
               (st.heap st.cur).set i
                 ⟨.assistant, .parts (ps.set j (.toolCall cid name input)), md⟩
             else st.heap k,
           st.cur⟩
      | none =>
          alloc st (st.heap st.cur ++ [⟨.assistant, .parts [.toolCall cid name input], none⟩])
  | .filePayload => st
  | .abortPayload => st
  | .sourcePayload => st
  | .toolResult cid name out =>
      alloc st (st.heap st.cur ++
        [⟨.tool, .parts [.toolResult cid name (guessToolResultOutput false out)], none⟩])
  | .toolError cid name err =>
      alloc st (st.heap st.cur ++
        [⟨.tool, .parts [.toolResult cid name (guessToolResultOutput true err)],
          some ⟨some true, none, none⟩⟩])
  | .structural => st

/-- Runs the loop under reference semantics, recording after each event
the array identity handed to `onMessage` together with the contents the
observer sees at emission time. -/
def refRun (sid : String) (now : Nat) (st : RefState) :
    List Chunk → RefState × List (Nat × List ChatMessage)
  | [] => (st, [])
  | c :: cs =>
      ((refRun sid now (refStep sid now st c) cs).1,
       ((refStep sid now st c).cur,
        (refStep sid now st c).heap (refStep sid now st c).cur) ::
         (refRun sid now (refStep sid now st c) cs).2)

/-- The C3 failing input under reference semantics: the caller's history
array object has identity 0 and is empty (`updatedMessages =
conversationHistory`), and the stream opens then finalizes tool call t1. -/
def refDemo : RefState × List (Nat × List ChatMessage) :=
  refRun "session_0" 0 ⟨1, fun _ => [], 0⟩
    [Chunk.toolInputStart "t1" "write",
     Chunk.toolCall "t1" "write" (JSVal.obj (.ofList [("path", JSVal.str "a.html")]))]

/-- C3 evaluated at the failing input: both emissions hand the observer
the same array object (identity 1); at the first emission it holds the
open call with empty input, but after the tool-call-finalized event the
same object holds the finalized call, so the snapshot previously emitted
to the observer was modified in place — the element assignment
`updatedMessages[i] = msg` of the tool-call case breaks the copy-on-write
discipline asserted by the spec. -/
theorem tool_call_mutates_emitted_snapshot :
    refDemo.2.map Prod.fst = [1, 1] ∧
    refDemo.2.head? = some (1,
      [⟨Role.assistant, Content.parts [Part.toolCall "t1" "write" (JSVal.obj .nil)], none⟩]) ∧
    refDemo.1.heap 1 =
      [⟨Role.assistant,
        Content.parts
          [Part.toolCall "t1" "write" (JSVal.obj (.ofList [("path", JSVal.str "a.html")]))],
        none⟩] ∧
    refDemo.1.heap 1 ≠
      [⟨Role.assistant, Content.parts [Part.toolCall "t1" "write" (JSVal.obj .nil)], none⟩] := by
  decide

end SecureDesign
